import Mathlib

/-!
Verification development for `ch11/01_a3c_data.py`: an asynchronous
advantage-actor-critic (A3C) trainer in which several actor processes push
n-step transitions onto a queue and a single learner process assembles
batches, computes bootstrapped returns, and performs a two-phase gradient
update.

The Python source is shallowly embedded: pure numeric code becomes Lean
functions over `ℚ` (the source's float32 arithmetic is modelled exactly over
the rationals), the actor and learner loops become explicit folds over the
sequence of queue items they process, and the autograd/optimizer machinery is
modelled as an event-replay semantics with abstract gradient, clipping and
optimizer oracles. The neural network itself is an external collaborator:
its value head appears as an abstract function `S → ℚ`, and softmax /
log-softmax appear as abstract per-row functions.
-/

namespace A3CData

/-! ### Hyperparameters (source lines 18-27) -/

def GAMMA : ℚ := 99 / 100

def LEARNING_RATE : ℚ := 1 / 1000

def ENTROPY_BETA : ℚ := 1 / 100

def BATCH_SIZE : ℕ := 128

def REWARD_STEPS : ℕ := 4

def CLIP_GRAD : ℚ := 1 / 10

def PROCESSES_COUNT : ℕ := 4

def NUM_ENVS : ℕ := 12

/-! ### Data model

A `Transition` is what `ptan.experience.ExperienceSourceFirstLast` yields:
first state, action taken there, n-step discounted reward, and the state
`REWARD_STEPS` ahead (or `none` when the episode ended inside the horizon).
-/

structure Transition (S : Type) where
  state : S
  action : ℕ
  reward : ℚ
  last_state : Option S
deriving DecidableEq

/-! ### `unpack_batch` (source lines 50-89)

The loop over `enumerate(batch)` collects `states`, `actions`, `rewards`,
the indices `not_done_idx` of transitions with a non-`None` `last_state`,
and those last states. `rewards_np` is a freshly allocated float array built
from the `rewards` list; when `not_done_idx` is non-empty the value head is
evaluated once on the batched last states and
`rewards_np[not_done_idx] += GAMMA ** REWARD_STEPS * last_vals_np` adds the
discounted bootstrap values at exactly those indices. The value head is the
abstract function `vf : S → ℚ`; the batched call is scalar-wise the map of
`vf` over the collected last states.
-/

def notDoneIdxFrom {S : Type} (n : ℕ) : List (Transition S) → List ℕ
  | [] => []
  | t :: ts =>
    if t.last_state.isSome then n :: notDoneIdxFrom (n + 1) ts
    else notDoneIdxFrom (n + 1) ts

def not_done_idx {S : Type} (batch : List (Transition S)) : List ℕ :=
  notDoneIdxFrom 0 batch

def lastStatesOf {S : Type} : List (Transition S) → List S
  | [] => []
  | t :: ts =>
    match t.last_state with
    | some s => s :: lastStatesOf ts
    | none => lastStatesOf ts

/-- The in-place update `rewards_np[not_done_idx] += GAMMA ** REWARD_STEPS * last_vals_np`:
for each index/value pair, add the discounted bootstrap value at that index. -/
def applyBootstrap (rw : List ℚ) (idxs : List ℕ) (vals : List ℚ) : List ℚ :=
  (idxs.zip vals).foldl
    (fun r p => r.set p.1 (r.getD p.1 0 + GAMMA ^ REWARD_STEPS * p.2)) rw

structure UnpackResult (S : Type) where
  states : List S
  actions : List ℕ
  ref_vals : List ℚ
  net_calls : ℕ
deriving DecidableEq

def unpack_batch {S : Type} (batch : List (Transition S)) (vf : S → ℚ) :
    UnpackResult S :=
  { states := batch.map (·.state)
    actions := batch.map (·.action)
    ref_vals :=
      applyBootstrap (batch.map (·.reward)) (not_done_idx batch)
        ((lastStatesOf batch).map vf)
    net_calls := if (not_done_idx batch).isEmpty then 0 else 1 }

/-- `unpack_batch` threaded with the batch as it stands after the call: every
write in the source targets a freshly allocated array (`rewards_np` is a new
float32 buffer built from the copied `rewards` list; the `+=` hits that
buffer), so the batch object is returned unchanged. -/
def unpack_batch_full {S : Type} (batch : List (Transition S)) (vf : S → ℚ) :
    UnpackResult S × List (Transition S) :=
  (unpack_batch batch vf, batch)

/-- The specification's description of the bootstrapped returns: stored n-step
reward, plus `γ^H` times the value head on `last_state` when that is present. -/
def refValsSpec {S : Type} (batch : List (Transition S)) (vf : S → ℚ) : List ℚ :=
  batch.map fun t =>
    t.reward +
      (match t.last_state with
       | none => 0
       | some s => GAMMA ^ REWARD_STEPS * vf s)

lemma notDoneIdxFrom_succ {S : Type} (ts : List (Transition S)) :
    ∀ n, notDoneIdxFrom (n + 1) ts = (notDoneIdxFrom n ts).map Nat.succ := by
  induction ts with
  | nil => intro n; rfl
  | cons t ts ih =>
    intro n
    by_cases h : t.last_state.isSome <;>
      simp [notDoneIdxFrom, h, ih (n + 1), ih n]

lemma applyBootstrap_cons_shift (x : ℚ) (rw : List ℚ) (idxs : List ℕ)
    (vals : List ℚ) :
    applyBootstrap (x :: rw) (idxs.map Nat.succ) vals =
      x :: applyBootstrap rw idxs vals := by
  induction idxs generalizing x rw vals with
  | nil => simp [applyBootstrap]
  | cons i is ih =>
    cases vals with
    | nil => simp [applyBootstrap]
    | cons v vs =>
      simp only [List.map_cons, applyBootstrap, List.zip_cons_cons,
        List.foldl_cons]
      have hset : (x :: rw).set (Nat.succ i)
          ((x :: rw).getD (Nat.succ i) 0 + GAMMA ^ REWARD_STEPS * v) =
          x :: rw.set i (rw.getD i 0 + GAMMA ^ REWARD_STEPS * v) := by
        simp [List.getD]
      rw [hset]
      exact ih x (rw.set i (rw.getD i 0 + GAMMA ^ REWARD_STEPS * v)) vs

/-- Pointwise characterisation of the fancy-indexed bootstrap update:
the returned `ref_vals` list is exactly the spec's per-transition formula. -/
lemma unpack_ref_vals_eq {S : Type} (batch : List (Transition S)) (vf : S → ℚ) :
    (unpack_batch batch vf).ref_vals = refValsSpec batch vf := by
  induction batch with
  | nil => rfl
  | cons t ts ih =>
    simp only [unpack_batch, refValsSpec, List.map_cons] at *
    cases hls : t.last_state with
    | none =>
      have hidx : not_done_idx (t :: ts) = (not_done_idx ts).map Nat.succ := by
        simp [not_done_idx, notDoneIdxFrom, hls, notDoneIdxFrom_succ]
      have hst : lastStatesOf (t :: ts) = lastStatesOf ts := by
        simp [lastStatesOf, hls]
      rw [hidx, hst, applyBootstrap_cons_shift]
      simp [ih]
    | some s =>
      have hidx : not_done_idx (t :: ts) = 0 :: (not_done_idx ts).map Nat.succ := by
        simp [not_done_idx, notDoneIdxFrom, hls, notDoneIdxFrom_succ]
      have hst : lastStatesOf (t :: ts) = s :: lastStatesOf ts := by
        simp [lastStatesOf, hls]
      rw [hidx, hst]
      have hstep : applyBootstrap (t.reward :: ts.map (·.reward))
          (0 :: (not_done_idx ts).map Nat.succ)
          ((s :: lastStatesOf ts).map vf) =
          applyBootstrap
            ((t.reward + GAMMA ^ REWARD_STEPS * vf s) :: ts.map (·.reward))
            ((not_done_idx ts).map Nat.succ) ((lastStatesOf ts).map vf) := by
        simp [applyBootstrap, List.getD]
      rw [hstep, applyBootstrap_cons_shift]
      simp [ih]

lemma not_done_idx_nil_of_all_none {S : Type} (batch : List (Transition S))
    (h : ∀ t ∈ batch, t.last_state = none) : not_done_idx batch = [] := by
  induction batch with
  | nil => rfl
  | cons t ts ih =>
    have ht : t.last_state = none := h t (List.mem_cons_self t ts)
    have hts : ∀ u ∈ ts, u.last_state = none := fun u hu =>
      h u (List.mem_cons_of_mem t hu)
    simp [not_done_idx, notDoneIdxFrom, ht, notDoneIdxFrom_succ] at *
    simpa [not_done_idx] using ih hts

/-! ### Concrete batch from the specification's end-to-end scenario -/

def pongVf : ℕ → ℚ := fun _ => 2

def pongBatch3 : List (Transition ℕ) :=
  [⟨0, 0, 1, none⟩, ⟨1, 0, -1, none⟩, ⟨2, 0, 1 / 2, some 7⟩]

def pongTerm2 : List (Transition ℕ) :=
  [⟨0, 0, 1, none⟩, ⟨1, 0, -1, none⟩]

/-- Claim C1: every transition with a present `last_state` contributes its
stored n-step reward plus `GAMMA ^ REWARD_STEPS` times the value head on that
`last_state`; a transition with `last_state = none` contributes exactly its
stored reward; and on the spec's three-transition scenario (terminal rewards
`1` and `-1`, one non-terminal reward `1/2` whose bootstrap value is `2`) the
returned vector is `[1, -1, 1/2 + (99/100)^4 * 2]`. -/
theorem unpack_batch_bootstrapped_returns :
    (∀ (S : Type) (batch : List (Transition S)) (vf : S → ℚ) (i : ℕ),
      (unpack_batch batch vf).ref_vals[i]? =
        batch[i]?.map (fun t =>
          t.reward +
            (match t.last_state with
             | none => 0
             | some s => GAMMA ^ REWARD_STEPS * vf s)))
    ∧ (unpack_batch pongBatch3 pongVf).ref_vals =
        [1, -1, 1 / 2 + (99 / 100) ^ 4 * 2] := by
  constructor
  · intro S batch vf i
    rw [unpack_ref_vals_eq, refValsSpec, List.getElem?_map]
  · rw [unpack_ref_vals_eq]
    simp [refValsSpec, pongBatch3, pongVf, GAMMA, REWARD_STEPS]

/-- Claim C8: `unpack_batch` never mutates its input transitions: the batch
as it stands after the call is the input batch, field for field, while the
bootstrap terms appear only in the freshly built `ref_vals` output. -/
theorem unpack_batch_preserves_transitions :
    ∀ (S : Type) (batch : List (Transition S)) (vf : S → ℚ),
      (unpack_batch_full batch vf).2 = batch
      ∧ (unpack_batch_full batch vf).2.map (·.state) = batch.map (·.state)
      ∧ (unpack_batch_full batch vf).2.map (·.action) = batch.map (·.action)
      ∧ (unpack_batch_full batch vf).2.map (·.reward) = batch.map (·.reward)
      ∧ (unpack_batch_full batch vf).2.map (·.last_state) =
          batch.map (·.last_state)
      ∧ (unpack_batch_full batch vf).1.ref_vals = refValsSpec batch vf :=
  fun _ batch vf => ⟨rfl, rfl, rfl, rfl, rfl, unpack_ref_vals_eq batch vf⟩

/-- Claim C10: on a batch whose transitions are all terminal
(`last_state = none`), `unpack_batch` performs no network evaluation at all
and returns exactly the stored rewards. -/
theorem unpack_batch_all_terminal :
    ∀ (S : Type) (batch : List (Transition S)) (vf : S → ℚ),
      (∀ t ∈ batch, t.last_state = none) →
        (unpack_batch batch vf).net_calls = 0
        ∧ (unpack_batch batch vf).ref_vals = batch.map (·.reward) := by
  intro S batch vf h
  have hidx := not_done_idx_nil_of_all_none batch h
  refine ⟨by simp [unpack_batch, hidx], ?_⟩
  rw [unpack_ref_vals_eq, refValsSpec]
  exact List.map_congr_left fun t ht => by simp [h t ht]

/-- Witness for C10 at the concrete two-transition all-terminal batch. -/
theorem unpack_batch_all_terminal_witness :
    (∀ t ∈ pongTerm2, t.last_state = none)
    ∧ ((unpack_batch pongTerm2 pongVf).net_calls = 0
       ∧ (unpack_batch pongTerm2 pongVf).ref_vals =
           pongTerm2.map (·.reward)) :=
  ⟨by decide, unpack_batch_all_terminal ℕ pongTerm2 pongVf (by decide)⟩

/-! ### Queue items and the actor loop (source lines 36-47)

`data_func` iterates over the experience source; in each iteration it drains
newly completed episode totals, pushes one `TotalReward` item carrying their
mean when the drain was non-empty, then pushes the transition itself; after
the loop it pushes `None` as its final item. An actor's history is modelled
as the list of iterations it performed, each iteration being the transition
produced together with the episode totals drained that iteration. -/

inductive QItem (T : Type) where
  | sentinel : QItem T
  | reward (r : ℚ) : QItem T
  | trans (t : T) : QItem T
deriving DecidableEq

def isSentinel {T : Type} : QItem T → Bool
  | .sentinel => true
  | _ => false

/-- `np.mean` over a drained list of episode totals. -/
def listMean (l : List ℚ) : ℚ := l.sum / l.length

def iterPushes {T : Type} (p : T × List ℚ) : List (QItem T) :=
  (if p.2.isEmpty then [] else [QItem.reward (listMean p.2)]) ++
    [QItem.trans p.1]

def actorPushes {T : Type} (iters : List (T × List ℚ)) : List (QItem T) :=
  (iters.map iterPushes).flatten ++ [QItem.sentinel]

/-! ### The learner loop (source lines 115-137)

The loop pops queue items: `None` breaks the loop at once; a `TotalReward`
is fed to the reward tracker and breaks the loop when the tracker signals
stop; a transition is appended to `batch`, and when `batch` reaches
`BATCH_SIZE` the batch is unpacked (its gradient step is modelled separately)
and cleared. `sentinels_seen` and `consumed` are observational ghost fields
recording how many sentinels were processed and which transitions were
appended; `updates` records each full batch handed to the update step. -/

structure LearnerState (T : Type) where
  batch : List T
  step_idx : ℕ
  stopped : Bool
  sentinels_seen : ℕ
  consumed : List T
  updates : List (List T)
deriving DecidableEq

def initLearner {T : Type} : LearnerState T :=
  ⟨[], 0, false, 0, [], []⟩

def learnerStep {T : Type} (stop : ℚ → ℕ → Bool) (s : LearnerState T)
    (item : QItem T) : LearnerState T :=
  if s.stopped then s
  else
    match item with
    | .sentinel =>
      { s with stopped := true, sentinels_seen := s.sentinels_seen + 1 }
    | .reward r => if stop r s.step_idx then { s with stopped := true } else s
    | .trans t =>
      let s1 := { s with
        step_idx := s.step_idx + 1
        consumed := s.consumed ++ [t]
        batch := s.batch ++ [t] }
      if s1.batch.length < BATCH_SIZE then s1
      else { s1 with batch := [], updates := s1.updates ++ [s1.batch] }

def learnerRun {T : Type} (stop : ℚ → ℕ → Bool) (items : List (QItem T)) :
    LearnerState T :=
  items.foldl (learnerStep stop) initLearner

def stopNever : ℚ → ℕ → Bool := fun _ _ => false

lemma foldl_invariant {α β : Type _} (P : α → Prop) (f : α → β → α)
    (l : List β) (init : α) (h0 : P init)
    (hstep : ∀ a b, P a → P (f a b)) : P (l.foldl f init) := by
  induction l generalizing init with
  | nil => exact h0
  | cons x xs ih => exact ih (f init x) (hstep init x h0)

lemma learnerStep_stopped {T : Type} (stop : ℚ → ℕ → Bool)
    (s : LearnerState T) (item : QItem T) (h : s.stopped = true) :
    learnerStep stop s item = s := by
  simp [learnerStep, h]

lemma learnerRun_from_stopped {T : Type} (stop : ℚ → ℕ → Bool)
    (s : LearnerState T) (items : List (QItem T)) (h : s.stopped = true) :
    items.foldl (learnerStep stop) s = s := by
  induction items with
  | nil => rfl
  | cons x xs ih => rw [List.foldl_cons, learnerStep_stopped stop s x h, ih]

/-- The learner's core sentinel invariant: while it has not stopped it has
processed no sentinel, and it never processes more than one. -/
lemma learner_sentinel_inv {T : Type} (stop : ℚ → ℕ → Bool)
    (items : List (QItem T)) :
    ((learnerRun stop items).stopped = false →
      (learnerRun stop items).sentinels_seen = 0)
    ∧ (learnerRun stop items).sentinels_seen ≤ 1 := by
  refine foldl_invariant
    (fun s : LearnerState T =>
      (s.stopped = false → s.sentinels_seen = 0) ∧ s.sentinels_seen ≤ 1)
    (learnerStep stop) items initLearner ⟨fun _ => rfl, Nat.zero_le 1⟩ ?_
  rintro s item ⟨h0, h1⟩
  by_cases hs : s.stopped = true
  · rw [learnerStep_stopped stop s item hs]; exact ⟨h0, h1⟩
  · have hz : s.sentinels_seen = 0 := h0 (by simpa using hs)
    cases item with
    | sentinel => simp [learnerStep, hs, hz]
    | reward r =>
      by_cases hr : stop r s.step_idx <;> simp [learnerStep, hs, hr, h0, h1]
    | trans t =>
      by_cases hb : s.batch.length + 1 < BATCH_SIZE <;>
        simp [learnerStep, hs, hb, h0, h1]

lemma learner_stopped_of_sentinel_mem {T : Type} (stop : ℚ → ℕ → Bool) :
    ∀ (items : List (QItem T)) (s : LearnerState T),
      QItem.sentinel ∈ items →
        (items.foldl (learnerStep stop) s).stopped = true := by
  intro items
  induction items with
  | nil => intro s h; cases h
  | cons x xs ih =>
    intro s h
    rcases List.mem_cons.mp h with hx | hxs
    · subst hx
      rw [List.foldl_cons]
      have hstop : (learnerStep stop s QItem.sentinel).stopped = true := by
        by_cases hs : s.stopped = true
        · rw [learnerStep_stopped stop s _ hs]; exact hs
        · simp [learnerStep, hs]
      rw [learnerRun_from_stopped stop _ xs hstop]
      exact hstop
    · exact ih (learnerStep stop s x) hxs

/-- Counterexample to claim C3 as stated: with `PROCESSES_COUNT = 4` actors,
the learner reaches its stopped state after observing a single sentinel, not
after a number of sentinels equal to the actor count. -/
theorem learner_stops_on_first_sentinel_cex :
    (learnerRun stopNever [(QItem.sentinel : QItem ℕ)]).stopped = true
    ∧ (learnerRun stopNever [(QItem.sentinel : QItem ℕ)]).sentinels_seen = 1
    ∧ 1 < PROCESSES_COUNT := by
  decide

/-- Claim C3 (amended): the learner loop terminates on the FIRST sentinel it
pops — it never observes more than one sentinel, observing one implies it has
stopped, and any run whose item stream contains a sentinel ends stopped; no
live-actor count is maintained. -/
theorem learner_stops_on_first_sentinel :
    ∀ (T : Type) (stop : ℚ → ℕ → Bool) (items : List (QItem T)),
      (learnerRun stop items).sentinels_seen ≤ 1
      ∧ ((learnerRun stop items).sentinels_seen = 1 →
          (learnerRun stop items).stopped = true)
      ∧ (QItem.sentinel ∈ items → (learnerRun stop items).stopped = true) := by
  intro T stop items
  obtain ⟨h0, h1⟩ := learner_sentinel_inv stop items
  refine ⟨h1, ?_, fun hmem => learner_stopped_of_sentinel_mem stop items _ hmem⟩
  intro hone
  cases hstop : (learnerRun stop items).stopped with
  | true => rfl
  | false => rw [h0 hstop] at hone; cases hone

/-- Witness for the amended C3 at a concrete one-sentinel stream. -/
theorem learner_stops_on_first_sentinel_witness :
    QItem.sentinel ∈ ([QItem.sentinel] : List (QItem ℕ))
    ∧ (learnerRun stopNever ([QItem.sentinel] : List (QItem ℕ))).stopped
        = true :=
  ⟨by decide,
    (learner_stops_on_first_sentinel ℕ stopNever [QItem.sentinel]).2.2
      (by decide)⟩

/-- Claim C7: the learner's batch grows only by appending one transition at a
time and is cleared right after being consumed: every batch handed to the
update step has length exactly `BATCH_SIZE`, the consumed batches followed by
the pending batch are precisely the transitions appended so far (in order,
none duplicated or dropped), and the pending batch always stays below
`BATCH_SIZE`. -/
theorem learner_batch_discipline :
    ∀ (T : Type) (stop : ℚ → ℕ → Bool) (items : List (QItem T)),
      (∀ u ∈ (learnerRun stop items).updates, u.length = BATCH_SIZE)
      ∧ (learnerRun stop items).updates.flatten ++ (learnerRun stop items).batch
          = (learnerRun stop items).consumed
      ∧ (learnerRun stop items).batch.length < BATCH_SIZE := by
  intro T stop items
  refine foldl_invariant
    (fun s : LearnerState T =>
      (∀ u ∈ s.updates, u.length = BATCH_SIZE)
      ∧ s.updates.flatten ++ s.batch = s.consumed
      ∧ s.batch.length < BATCH_SIZE)
    (learnerStep stop) items initLearner
    ⟨fun u hu => absurd hu (List.not_mem_nil u), by simp [initLearner],
      by simp [initLearner, BATCH_SIZE]⟩ ?_
  rintro s item ⟨hu, hc, hb⟩
  by_cases hs : s.stopped = true
  · rw [learnerStep_stopped stop s item hs]; exact ⟨hu, hc, hb⟩
  · cases item with
    | sentinel => simpa [learnerStep, hs] using ⟨hu, hc, hb⟩
    | reward r =>
      by_cases hr : stop r s.step_idx <;>
        simpa [learnerStep, hs, hr] using ⟨hu, hc, hb⟩
    | trans t =>
      by_cases hlen : s.batch.length + 1 < BATCH_SIZE
      · have hstep : learnerStep stop s (QItem.trans t) =
            { s with step_idx := s.step_idx + 1,
                     consumed := s.consumed ++ [t],
                     batch := s.batch ++ [t] } := by
          simp [learnerStep, hs, hlen]
        rw [hstep]
        refine ⟨hu, ?_, ?_⟩
        · show s.updates.flatten ++ (s.batch ++ [t]) = s.consumed ++ [t]
          rw [← List.append_assoc, hc]
        · simpa using hlen
      · have hfull : s.batch.length + 1 = BATCH_SIZE := by omega
        have hstep : learnerStep stop s (QItem.trans t) =
            { s with step_idx := s.step_idx + 1,
                     consumed := s.consumed ++ [t],
                     batch := ([] : List T),
                     updates := s.updates ++ [s.batch ++ [t]] } := by
          simp [learnerStep, hs, hlen]
        rw [hstep]
        refine ⟨?_, ?_, ?_⟩
        · intro u hu'
          rcases List.mem_append.mp
              (show u ∈ s.updates ++ [s.batch ++ [t]] from hu') with h | h
          · exact hu u h
          · rw [List.mem_singleton.mp h]; simpa using hfull
        · show (s.updates ++ [s.batch ++ [t]]).flatten ++ [] = s.consumed ++ [t]
          rw [List.append_nil, List.flatten_append, ← hc]
          simp [List.append_assoc]
        · simp [BATCH_SIZE]

def items128 : List (QItem ℕ) := List.replicate BATCH_SIZE (QItem.trans 0)

set_option maxRecDepth 40000 in
/-- Witness for C7: feeding exactly `BATCH_SIZE` transitions yields one
consumed batch of length `BATCH_SIZE`. -/
theorem learner_batch_discipline_witness :
    List.replicate BATCH_SIZE (0 : ℕ) ∈ (learnerRun stopNever items128).updates
    ∧ (List.replicate BATCH_SIZE (0 : ℕ)).length = BATCH_SIZE :=
  ⟨by decide,
    (learner_batch_discipline ℕ stopNever items128).1 _ (by decide)⟩

/-- Claim C6: each actor iteration pushes its (optional) reward report
immediately before that iteration's transition, and the sentinel is the
final — and only — sentinel item the actor pushes. -/
theorem actor_push_ordering :
    ∀ (T : Type) (iters : List (T × List ℚ)),
      (actorPushes iters).getLast? = some QItem.sentinel
      ∧ (actorPushes iters).countP (fun x => isSentinel x) = 1
      ∧ ∀ (e : T) (rs : List ℚ), (e, rs) ∈ iters → rs ≠ [] →
          ∃ l r, actorPushes iters =
            l ++ (QItem.reward (listMean rs) :: QItem.trans e :: r) := by
  intro T iters
  refine ⟨?_, ?_, ?_⟩
  · rw [actorPushes]; exact List.getLast?_concat _
  · rw [actorPushes, List.countP_append]
    have hz : ((iters.map iterPushes).flatten).countP
        (fun x => isSentinel x) = 0 := by
      rw [List.countP_eq_zero]
      intro a ha
      obtain ⟨l, hl, hal⟩ := List.mem_flatten.mp ha
      obtain ⟨p, _, hp⟩ := List.mem_map.mp hl
      subst hp
      rcases List.mem_append.mp hal with h | h
      · by_cases he : p.2.isEmpty <;> simp [iterPushes, he] at h
        · rw [h]; simp [isSentinel]
      · rw [List.mem_singleton.mp h]; simp [isSentinel]
    rw [hz]
    simp [isSentinel]
  · intro e rs hmem hrs
    obtain ⟨l1, l2, hsplit⟩ := List.append_of_mem hmem
    subst hsplit
    have hne : rs.isEmpty = false := by
      simpa [List.isEmpty_iff] using hrs
    refine ⟨(l1.map iterPushes).flatten,
      (l2.map iterPushes).flatten ++ [QItem.sentinel], ?_⟩
    simp [actorPushes, iterPushes, hne, List.append_assoc]

def itersW : List (ℕ × List ℚ) := [(0, [2, 4])]

/-- Witness for C6 at one concrete iteration with a drained reward list. -/
theorem actor_push_ordering_witness :
    (((0 : ℕ), ([2, 4] : List ℚ)) ∈ itersW ∧ ([2, 4] : List ℚ) ≠ [])
    ∧ ∃ l r, actorPushes itersW =
        l ++ (QItem.reward (listMean [2, 4]) :: QItem.trans 0 :: r) :=
  ⟨⟨by decide, by decide⟩,
    (actor_push_ordering ℕ itersW).2.2 0 [2, 4] (by decide) (by decide)⟩

/-! ### The update step as an autograd event replay (source lines 138-161)

The straight-line body of the training step is embedded as the sequence of
autograd/optimizer calls it performs: `optimizer.zero_grad()`, the policy
backward pass with `retain_graph=True`, the flattened gradient snapshot for
diagnostics, the backward pass of `entropy_loss + value_loss` (accumulating),
`clip_grad_norm(parameters, CLIP_GRAD)`, and `optimizer.step()`. The replay
semantics keeps the accumulated gradient buffers, whether the computation
graph is still alive (a backward pass on a freed graph fails), the diagnostic
snapshot, and the parameter/optimizer-state pair. Gradients of the three loss
terms, the clipping coefficient computed by `clip_grad_norm`, and the Adam
update are abstract oracles `g`, `κ` and `optF`. -/

inductive LossTerm where
  | policy
  | entropy
  | value
deriving DecidableEq

inductive UEvent where
  | zero_grad : UEvent
  | backward (ls : List LossTerm) (retain : Bool) : UEvent
  | snapshot_grads : UEvent
  | clip_norm (c : ℚ) : UEvent
  | opt_step : UEvent
deriving DecidableEq

/-- The event sequence of source lines 138-161, in program order. -/
def updateEvents : List UEvent :=
  [UEvent.zero_grad,
   UEvent.backward [LossTerm.policy] true,
   UEvent.snapshot_grads,
   UEvent.backward [LossTerm.entropy, LossTerm.value] false,
   UEvent.clip_norm CLIP_GRAD,
   UEvent.opt_step]

structure UpdState (ι Ω : Type) where
  grads : ι → ℚ
  graph_alive : Bool
  snap : Option (ι → ℚ)
  steps : ℕ
  params : ι → ℚ
  ost : Ω

def applyUEvent {ι Ω : Type} (g : LossTerm → ι → ℚ) (κ : ℚ → (ι → ℚ) → ℚ)
    (optF : (ι → ℚ) → (ι → ℚ) → Ω → (ι → ℚ) × Ω) (s : UpdState ι Ω) :
    UEvent → Option (UpdState ι Ω)
  | UEvent.zero_grad => some { s with grads := fun _ => 0 }
  | UEvent.backward ls retain =>
    match s.graph_alive with
    | true =>
      some { s with
        grads := fun i => s.grads i + (ls.map (fun l => g l i)).sum
        graph_alive := retain }
    | false => none
  | UEvent.snapshot_grads => some { s with snap := some s.grads }
  | UEvent.clip_norm c => some { s with grads := fun i => κ c s.grads * s.grads i }
  | UEvent.opt_step =>
    some { s with
      params := (optF s.grads s.params s.ost).1
      ost := (optF s.grads s.params s.ost).2
      steps := s.steps + 1 }

def runUpdate {ι Ω : Type} (g : LossTerm → ι → ℚ) (κ : ℚ → (ι → ℚ) → ℚ)
    (optF : (ι → ℚ) → (ι → ℚ) → Ω → (ι → ℚ) × Ω) (g0 θ0 : ι → ℚ) (ω0 : Ω) :
    Option (UpdState ι Ω) :=
  updateEvents.foldlM (applyUEvent g κ optF) ⟨g0, true, none, 0, θ0, ω0⟩

/-- The combined gradient of all three loss terms. -/
def totalGrad {ι : Type} (g : LossTerm → ι → ℚ) : ι → ℚ :=
  fun i => g LossTerm.policy i + g LossTerm.entropy i + g LossTerm.value i

/-- Claim C2: the update step replays without error (the first backward pass
retains the graph, so the second may run), the diagnostic snapshot captures
exactly the policy gradient alone, the second backward pass accumulates the
entropy+value gradient onto the policy gradient, the gradient handed to the
single clip event (threshold `CLIP_GRAD = 1/10`) is the sum of all three
contributions, and exactly one optimizer step runs, on the clipped combined
gradient. -/
theorem update_two_phase_backward_single_step :
    ∀ (ι Ω : Type) (g : LossTerm → ι → ℚ) (κ : ℚ → (ι → ℚ) → ℚ)
      (optF : (ι → ℚ) → (ι → ℚ) → Ω → (ι → ℚ) × Ω) (g0 θ0 : ι → ℚ) (ω0 : Ω),
      runUpdate g κ optF g0 θ0 ω0 =
        some { grads := fun i => κ CLIP_GRAD (totalGrad g) * totalGrad g i
               graph_alive := false
               snap := some (fun i => g LossTerm.policy i)
               steps := 1
               params := (optF (fun i => κ CLIP_GRAD (totalGrad g) * totalGrad g i)
                   θ0 ω0).1
               ost := (optF (fun i => κ CLIP_GRAD (totalGrad g) * totalGrad g i)
                   θ0 ω0).2 }
      ∧ CLIP_GRAD = 1 / 10 := by
  intro ι Ω g κ optF g0 θ0 ω0
  refine ⟨?_, rfl⟩
  have hG : (fun i => (0 : ℚ) + (g LossTerm.policy i + 0) +
      (g LossTerm.entropy i + (g LossTerm.value i + 0))) = totalGrad g := by
    funext i
    show _ = g LossTerm.policy i + g LossTerm.entropy i + g LossTerm.value i
    ring
  have hP : (fun i => (0 : ℚ) + (g LossTerm.policy i + 0)) =
      fun i => g LossTerm.policy i := by
    funext i
    ring
  have hrun : runUpdate g κ optF g0 θ0 ω0 =
      some { grads := fun i =>
               κ CLIP_GRAD (fun i' => (0 : ℚ) + (g LossTerm.policy i' + 0) +
                   (g LossTerm.entropy i' + (g LossTerm.value i' + 0))) *
                 ((fun i' => (0 : ℚ) + (g LossTerm.policy i' + 0) +
                   (g LossTerm.entropy i' + (g LossTerm.value i' + 0))) i)
             graph_alive := false
             snap := some (fun i => (0 : ℚ) + (g LossTerm.policy i + 0))
             steps := 1
             params := (optF (fun i =>
                 κ CLIP_GRAD (fun i' => (0 : ℚ) + (g LossTerm.policy i' + 0) +
                     (g LossTerm.entropy i' + (g LossTerm.value i' + 0))) *
                   ((fun i' => (0 : ℚ) + (g LossTerm.policy i' + 0) +
                     (g LossTerm.entropy i' + (g LossTerm.value i' + 0))) i))
                 θ0 ω0).1
             ost := (optF (fun i =>
                 κ CLIP_GRAD (fun i' => (0 : ℚ) + (g LossTerm.policy i' + 0) +
                     (g LossTerm.entropy i' + (g LossTerm.value i' + 0))) *
                   ((fun i' => (0 : ℚ) + (g LossTerm.policy i' + 0) +
                     (g LossTerm.entropy i' + (g LossTerm.value i' + 0))) i))
                 θ0 ω0).2 } := rfl
  rw [hrun, hG, hP]

/-- The update step with the ambient random-number-generator state threaded
through: source lines 138-161 never consume randomness, so the state passes
through untouched. -/
def updateWithRng {ι Ω : Type} (g : LossTerm → ι → ℚ) (κ : ℚ → (ι → ℚ) → ℚ)
    (optF : (ι → ℚ) → (ι → ℚ) → Ω → (ι → ℚ) × Ω) (g0 θ0 : ι → ℚ) (ω0 : Ω)
    (rng : ℕ) : Option (UpdState ι Ω) × ℕ :=
  (runUpdate g κ optF g0 θ0 ω0, rng)

/-- Claim C9: two invocations of the update step with identical loss inputs
(hence identical gradient oracle), identical initial parameters and optimizer
state, but arbitrary ambient RNG states, produce the same result — in
particular the same updated parameters, hence identical parameter deltas. -/
theorem update_step_deterministic :
    ∀ (ι Ω : Type) (g : LossTerm → ι → ℚ) (κ : ℚ → (ι → ℚ) → ℚ)
      (optF : (ι → ℚ) → (ι → ℚ) → Ω → (ι → ℚ) × Ω) (g0 θ0 : ι → ℚ) (ω0 : Ω)
      (r1 r2 : ℕ),
      (updateWithRng g κ optF g0 θ0 ω0 r1).1 =
        (updateWithRng g κ optF g0 θ0 ω0 r2).1
      ∧ ((updateWithRng g κ optF g0 θ0 ω0 r1).1.map fun s => s.params) =
          ((updateWithRng g κ optF g0 θ0 ω0 r2).1.map fun s => s.params) :=
  fun _ _ _ _ _ _ _ _ _ _ => ⟨rfl, rfl⟩

/-! ### The loss expressions (source lines 141-149, 158)

`value_v`, `vals_ref_v`, the per-row softmax/log-softmax outputs and the
chosen actions are the inputs; torch's `.mean()` over the batch is sum
divided by batch size. -/

def tmean {n : ℕ} (f : Fin n → ℚ) : ℚ := (∑ i, f i) / n

/-- `F.mse_loss(value_v, vals_ref_v)` (source line 141). -/
def mse_loss {n : ℕ} (a b : Fin n → ℚ) : ℚ := tmean fun i => (a i - b i) ^ 2

/-- `ENTROPY_BETA * (prob_v * log_prob_v).sum(dim=1).mean()` (source line 149). -/
def entropy_loss_v {n k : ℕ} (prob log_prob : Fin n → Fin k → ℚ) : ℚ :=
  ENTROPY_BETA * tmean (fun i => ∑ a, prob i a * log_prob i a)

/-- `loss_v = entropy_loss_v + loss_value_v` (source line 158), the loss
backpropagated in the second phase. -/
def loss_second_phase {n k : ℕ} (value vals_ref : Fin n → ℚ)
    (prob log_prob : Fin n → Fin k → ℚ) : ℚ :=
  entropy_loss_v prob log_prob + mse_loss value vals_ref

/-- Claim C5: the entropy term equals `0.01` times the batch mean of the
per-row sum over actions of `softmax(logits) * log_softmax(logits)` — i.e.
beta times negative entropy — and it enters the second-phase loss with a plus
sign, added to the value loss. -/
theorem entropy_loss_sign_convention :
    ∀ (n k : ℕ) (softm logsm : (Fin k → ℚ) → Fin k → ℚ)
      (logits : Fin n → Fin k → ℚ) (value vals_ref : Fin n → ℚ),
      entropy_loss_v (fun i => softm (logits i)) (fun i => logsm (logits i)) =
        (1 / 100) *
          ((∑ i, ∑ a, softm (logits i) a * logsm (logits i) a) / n)
      ∧ loss_second_phase value vals_ref (fun i => softm (logits i))
          (fun i => logsm (logits i)) =
          mse_loss value vals_ref +
            entropy_loss_v (fun i => softm (logits i))
              (fun i => logsm (logits i)) := by
  intro n k softm logsm logits value vals_ref
  constructor
  · rfl
  · exact add_comm _ _

/-! ### Gradient flow of the policy loss (source lines 143-146)

To settle whether the policy loss sends gradient into the value head, the
policy-loss computation is embedded as an expression tree over the autograd
variables it touches: the value-head outputs `val i` and the log-softmax
entries `logp i a`. `vals_ref_v` carries no graph (it is rebuilt from a numpy
array in `unpack_batch`), so it appears as constants. `detach` evaluates
transparently but blocks differentiation, exactly like `tensor.detach()`. -/

inductive AVar where
  | val (i : ℕ) : AVar
  | logp (i a : ℕ) : AVar
deriving DecidableEq

inductive AExp where
  | const (c : ℚ) : AExp
  | var (v : AVar) : AExp
  | add (a b : AExp) : AExp
  | sub (a b : AExp) : AExp
  | mul (a b : AExp) : AExp
  | neg (a : AExp) : AExp
  | scale (c : ℚ) (a : AExp) : AExp
  | detach (a : AExp) : AExp

def AExp.eval (ρ : AVar → ℚ) : AExp → ℚ
  | AExp.const c => c
  | AExp.var v => ρ v
  | AExp.add a b => a.eval ρ + b.eval ρ
  | AExp.sub a b => a.eval ρ - b.eval ρ
  | AExp.mul a b => a.eval ρ * b.eval ρ
  | AExp.neg a => -a.eval ρ
  | AExp.scale c a => c * a.eval ρ
  | AExp.detach a => a.eval ρ

/-- Partial derivative with respect to variable `x` at valuation `ρ`;
`detach` has derivative zero. -/
def AExp.deriv (ρ : AVar → ℚ) (x : AVar) : AExp → ℚ
  | AExp.const _ => 0
  | AExp.var v => if v = x then 1 else 0
  | AExp.add a b => a.deriv ρ x + b.deriv ρ x
  | AExp.sub a b => a.deriv ρ x - b.deriv ρ x
  | AExp.mul a b => a.deriv ρ x * b.eval ρ + a.eval ρ * b.deriv ρ x
  | AExp.neg a => -a.deriv ρ x
  | AExp.scale c a => c * a.deriv ρ x
  | AExp.detach _ => 0

def sumExp (l : List AExp) : AExp := l.foldr AExp.add (AExp.const 0)

/-- torch `.mean()`: sum scaled by the reciprocal of the length. -/
def meanExp (l : List AExp) : AExp :=
  AExp.scale (1 / (l.length : ℚ)) (sumExp l)

/-- `adv_v = vals_ref_v - value_v.detach()` (source line 144), row `i`. -/
def adv_v (vals_ref : ℕ → ℚ) (i : ℕ) : AExp :=
  AExp.sub (AExp.const (vals_ref i)) (AExp.detach (AExp.var (AVar.val i)))

/-- `adv_v * log_prob_v[range(BATCH_SIZE), actions_t]` (source line 145),
row `i`: the advantage times the log-probability of that row's own action. -/
def log_prob_actions_v (vals_ref : ℕ → ℚ) (actions : ℕ → ℕ) (i : ℕ) : AExp :=
  AExp.mul (adv_v vals_ref i) (AExp.var (AVar.logp i (actions i)))

/-- `loss_policy_v = -log_prob_actions_v.mean()` (source line 146). -/
def loss_policy_v (n : ℕ) (vals_ref : ℕ → ℚ) (actions : ℕ → ℕ) : AExp :=
  AExp.neg (meanExp ((List.range n).map (log_prob_actions_v vals_ref actions)))

lemma eval_sumExp (ρ : AVar → ℚ) (l : List AExp) :
    (sumExp l).eval ρ = (l.map (AExp.eval ρ)).sum := by
  induction l with
  | nil => rfl
  | cons e es ih =>
    simp only [sumExp] at ih ⊢
    simp [AExp.eval, ih]

lemma deriv_sumExp (ρ : AVar → ℚ) (x : AVar) (l : List AExp) :
    (sumExp l).deriv ρ x = (l.map (AExp.deriv ρ x)).sum := by
  induction l with
  | nil => rfl
  | cons e es ih =>
    simp only [sumExp] at ih ⊢
    simp [AExp.deriv, ih]

lemma list_range_map_sum (n : ℕ) (f : ℕ → ℚ) :
    ((List.range n).map f).sum = ∑ i ∈ Finset.range n, f i := by
  induction n with
  | zero => rfl
  | succ m ih =>
    rw [List.range_succ, List.map_append, List.sum_append,
      Finset.sum_range_succ, ih]
    simp

/-- Claim C4: the advantage evaluates to `returns - value` with the value
occurrence detached, the policy loss sends zero gradient into every
value-head output, and the policy loss evaluates to the negated batch mean of
`advantage * log_prob[i, actions[i]]`. -/
theorem policy_loss_advantage_detached :
    ∀ (ρ : AVar → ℚ) (n : ℕ) (vals_ref : ℕ → ℚ) (actions : ℕ → ℕ),
      (∀ i, (adv_v vals_ref i).eval ρ = vals_ref i - ρ (AVar.val i))
      ∧ (∀ j, (loss_policy_v n vals_ref actions).deriv ρ (AVar.val j) = 0)
      ∧ (loss_policy_v n vals_ref actions).eval ρ =
          -((∑ i ∈ Finset.range n,
              (vals_ref i - ρ (AVar.val i)) * ρ (AVar.logp i (actions i))) / n) := by
  intro ρ n vals_ref actions
  refine ⟨fun i => rfl, ?_, ?_⟩
  · intro j
    have hterm : ∀ i,
        (log_prob_actions_v vals_ref actions i).deriv ρ (AVar.val j) = 0 := by
      intro i
      simp [log_prob_actions_v, adv_v, AExp.deriv, AExp.eval]
    simp only [loss_policy_v, meanExp, AExp.deriv, deriv_sumExp, List.map_map]
    rw [List.sum_eq_zero]
    · simp
    · intro x hx
      obtain ⟨i, _, hxi⟩ := List.mem_map.mp hx
      rw [← hxi]
      exact hterm i
  · simp only [loss_policy_v, meanExp, AExp.eval, eval_sumExp, List.map_map]
    have hterm : ∀ i,
        (log_prob_actions_v vals_ref actions i).eval ρ =
          (vals_ref i - ρ (AVar.val i)) * ρ (AVar.logp i (actions i)) :=
      fun i => rfl
    rw [show ((AExp.eval ρ) ∘ log_prob_actions_v vals_ref actions) =
        fun i => (vals_ref i - ρ (AVar.val i)) * ρ (AVar.logp i (actions i))
      from funext hterm]
    rw [list_range_map_sum]
    simp only [List.length_map, List.length_range]
    ring

end A3CData
